import Mathlib

/-!
Shallow embedding of the go-tsm time-scale-modification library
(packages `multichannel`, `window`, `wsola` and `tsm` of Muges/go-tsm).

Audio samples (`float64` in Go) are modelled as rationals: every claim
checked here is about control flow, index bookkeeping and exact
comparisons (the `== 0` silence test, the `1e-4` epsilon test), none of
which depends on floating-point rounding; the arithmetic performed on
the concrete inputs used in the counterexamples and witnesses is exact
in `float64` as well.

Go panics are modelled by `Option`: an operation that panics returns
`none`.  Whenever a panic check precedes every mutation in the source
(as in `CBuffer.Divide`'s space check), `none` also means "no sample was
modified".
-/

namespace GoTSM

/-- The epsilon of `CBuffer.Divide` (`const epsilon = 0.0001`). -/
def epsilon : ℚ := 1 / 10000

/-! ### Circular-cell primitives

All go-tsm circular buffers index their backing array as
`data[(base + i) % size]`.  `applyFrom sz upd l start vals` performs, for
each `i < vals.length`, `l[(start+i) % sz] := upd l[(start+i) % sz] vals[i]`,
in increasing order of `i`, exactly like the Go loops. -/

def applyFrom (sz : ℕ) (upd : ℚ → ℚ → ℚ) : List ℚ → ℕ → List ℚ → List ℚ
  | l, _, [] => l
  | l, start, v :: vs => applyFrom sz upd (l.set (start % sz) (upd (l.getD (start % sz) 0) v)) (start + 1) vs

/-- `CBuffer.Write`'s inner loop: plain stores. -/
def storeFrom (sz : ℕ) (l : List ℚ) (start : ℕ) (vals : List ℚ) : List ℚ :=
  applyFrom sz (fun _ v => v) l start vals

/-- `CBuffer.Add`'s inner loop: accumulating stores. -/
def addFrom (sz : ℕ) (l : List ℚ) (start : ℕ) (vals : List ℚ) : List ℚ :=
  applyFrom sz (fun old v => old + v) l start vals

/-- `CBuffer.Remove`'s inner loop: zeroing `n` cells. -/
def zeroFrom (sz : ℕ) (l : List ℚ) (start n : ℕ) : List ℚ :=
  applyFrom sz (fun _ _ => 0) l start (List.replicate n 0)

/-- `CBuffer.Peek`'s inner loop: reading `n` cells starting at `start`. -/
def readFrom (sz : ℕ) (l : List ℚ) (start n : ℕ) : List ℚ :=
  (List.range n).map fun i => l.getD ((start + i) % sz) 0

/-! ### multichannel.NormalizeBuffer -/

/-- `multichannel.NormalizeBuffer`: a mono-channel circular buffer of
accumulated window weights (`data []float64; pointer int`). -/
structure NormalizeBuffer where
  data : List ℚ
  pointer : ℕ
  deriving DecidableEq, Repr

/-- `NewNormalizeBuffer(n)`. -/
def NormalizeBuffer.new (n : ℕ) : NormalizeBuffer :=
  { data := List.replicate n 0, pointer := 0 }

/-- `NormalizeBuffer.Add`: panics when the window is longer than the buffer,
otherwise `data[(pointer+i) % len(data)] += window[i]` for each `i`. -/
def NormalizeBuffer.add (b : NormalizeBuffer) (window : List ℚ) : Option NormalizeBuffer :=
  if b.data.length < window.length then none
  else some { b with data := addFrom b.data.length b.data b.pointer window }

/-- `NormalizeBuffer.Get(i)`.  The Go source checks `i < 0 || i > len(b.data)`
and then returns `b.data[(b.pointer+i) % len(b.data)]`; the index `i` is an
`int`, so the model takes `i : ℤ`.  A panic (from the bounds check, or from
the `% 0` when the buffer is empty) is `none`; note that the source's check
lets `i = len(b.data)` through, in which case the modulo wraps the access
to the cursor cell. -/
def NormalizeBuffer.get (b : NormalizeBuffer) (i : ℤ) : Option ℚ :=
  if i < 0 ∨ (b.data.length : ℤ) < i then none
  else b.data.get? ((b.pointer + i.toNat) % b.data.length)

/-- One iteration of `NormalizeBuffer.Remove`'s loop:
`data[pointer % len] = 0; pointer = (pointer+1) % len`. -/
def nbRemoveStep (b : NormalizeBuffer) : NormalizeBuffer :=
  { data := b.data.set (b.pointer % b.data.length) 0,
    pointer := (b.pointer + 1) % b.data.length }

def nbRemoveLoop : NormalizeBuffer → ℕ → NormalizeBuffer
  | b, 0 => b
  | b, n + 1 => nbRemoveLoop (nbRemoveStep b) n

/-- `NormalizeBuffer.Remove(n)`: guarded by `len(b.data) != 0` in the source. -/
def NormalizeBuffer.remove (b : NormalizeBuffer) (n : ℕ) : NormalizeBuffer :=
  if b.data.length = 0 then b else nbRemoveLoop b n

/-! ### multichannel Buffer values

`multichannel.Buffer` values (`TSMBuffer`, `StereoBuffer`, …) are modelled as
a list of channels, each a list of samples. -/

abbrev Block := List (List ℚ)

/-- `Buffer.Len()`: the length of the first channel (`0` for no channels),
as in `TSMBuffer.Len`. -/
def blockLen (b : Block) : ℕ := (b.headD []).length

/-- `Buffer.Channels()`. -/
def blockChannels (b : Block) : ℕ := b.length

/-- `Buffer.Slice(i, j)`: per channel, `b[k][i:j]`. -/
def blockSlice (b : Block) (i j : ℕ) : Block :=
  b.map fun ch => (ch.drop i).take (j - i)

/-- A well-formed block: every channel has the common length `blockLen`. -/
def blockWF (b : Block) : Prop := ∀ ch ∈ b, ch.length = blockLen b

instance (b : Block) : Decidable (blockWF b) := by
  unfold blockWF; infer_instance

/-! ### multichannel.CBuffer -/

/-- `multichannel.CBuffer`: fixed-size multi-channel circular buffer with a
readable part (`[readPointer, readPointer+length)` mod `size`) and a writable
part (the rest). -/
structure CBuffer where
  data : List (List ℚ)
  size : ℕ
  readPointer : ℕ
  length : ℕ
  deriving DecidableEq, Repr

/-- `NewCBuffer(channels, size)`. -/
def CBuffer.new (channels size : ℕ) : CBuffer :=
  { data := List.replicate channels (List.replicate size 0),
    size := size, readPointer := 0, length := 0 }

/-- `CBuffer.Len()`. -/
def CBuffer.len (c : CBuffer) : ℕ := c.length

/-- `CBuffer.RemainingSpace()`: `size - length`. -/
def CBuffer.remainingSpace (c : CBuffer) : ℕ := c.size - c.length

/-- Well-formedness of a `CBuffer`: every channel's backing array has length
`size`, the readable length never exceeds the capacity, and the capacity is
positive (a capacity-0 buffer panics on its first `Remove`, at the
`% c.size`). -/
def CBuffer.wf (c : CBuffer) : Prop :=
  (∀ ch ∈ c.data, ch.length = c.size) ∧ c.length ≤ c.size ∧ 0 < c.size

instance (c : CBuffer) : Decidable c.wf := by
  unfold CBuffer.wf; infer_instance

/-- `CBuffer.Write(buffer)`: panics on a channel-count mismatch; otherwise
copies `n = min(buffer.Len(), RemainingSpace())` samples per channel into the
writable region, marks them readable (`c.length += n`), and returns `n`. -/
def CBuffer.write (c : CBuffer) (b : Block) : Option (ℕ × CBuffer) :=
  if c.data.length ≠ blockChannels b then none
  else
    let n := min (blockLen b) c.remainingSpace
    some (n,
      { c with
        data := List.zipWith
          (fun ch bch => storeFrom c.size ch (c.readPointer + c.length) (bch.take n))
          c.data b,
        length := c.length + n })

/-- `CBuffer.Add(buffer)`: panics on a channel-count mismatch or when some
channel of `buffer` is longer than the remaining space; otherwise accumulates
`buffer` element-wise into the writable region (readable length unchanged). -/
def CBuffer.add (c : CBuffer) (b : Block) : Option CBuffer :=
  if c.data.length ≠ blockChannels b then none
  else if b.any (fun bch => decide (c.remainingSpace < bch.length)) then none
  else some
    { c with
      data := List.zipWith
        (fun ch bch => addFrom c.size ch (c.readPointer + c.length) bch)
        c.data b }

/-- The loop of `CBuffer.Divide`: for `i` in `[i₀, i₀+steps)`, fetch
`v = nb.Get(i)` (its panic propagates) and, when `v < -ε || v > ε`, divide the
cell `(start+i) % sz` of every channel by `v`. -/
def divideLoop (sz start : ℕ) (nb : NormalizeBuffer) :
    ℕ → ℕ → List (List ℚ) → Option (List (List ℚ))
  | _, 0, data => some data
  | i, steps + 1, data => do
    let v ← nb.get i
    let data' :=
      if v < -epsilon ∨ epsilon < v then
        data.map fun ch => ch.set ((start + i) % sz) (ch.getD ((start + i) % sz) 0 / v)
      else data
    divideLoop sz start nb (i + 1) steps data'

/-- `CBuffer.Divide(buffer, n)`: panics — before touching any sample — when
`n` exceeds the remaining writable space, then runs the division loop over the
first `n` writable cells. -/
def CBuffer.divide (c : CBuffer) (nb : NormalizeBuffer) (n : ℕ) : Option CBuffer :=
  if c.remainingSpace < n then none
  else (divideLoop c.size (c.readPointer + c.length) nb 0 n c.data).map
    fun d => { c with data := d }

/-- `CBuffer.Peek(samples)`: copies `n = min(samples.Len(), c.Len())` readable
samples per channel without removing them; returns the count and the copied
samples.  (The destination's channel count is assumed to match; the copied
prefix is returned instead of mutating a destination.) -/
def CBuffer.peek (c : CBuffer) (destLen : ℕ) : ℕ × Block :=
  let n := min destLen c.length
  (n, c.data.map fun ch => readFrom c.size ch c.readPointer n)

/-- `CBuffer.Remove(n)`: clamps `n` to the readable length, zeroes the removed
cells, and advances the read pointer modulo the capacity. -/
def CBuffer.remove (c : CBuffer) (n : ℕ) : CBuffer :=
  let m := min n c.length
  { c with
    data := c.data.map fun ch => zeroFrom c.size ch c.readPointer m,
    readPointer := (c.readPointer + m) % c.size,
    length := c.length - m }

/-- `CBuffer.Read(buffer)`: `Peek` then `Remove` of the count peeked. -/
def CBuffer.read (c : CBuffer) (destLen : ℕ) : ℕ × Block × CBuffer :=
  let p := c.peek destLen
  (p.1, p.2, c.remove p.1)

/-- `CBuffer.SetReadable(n)`: panics when `n` exceeds the remaining space,
otherwise `c.length += n`. -/
def CBuffer.setReadable (c : CBuffer) (n : ℕ) : Option CBuffer :=
  if c.remainingSpace < n then none
  else some { c with length := c.length + n }

/-! ### window.Product and windowing -/

/-- `window.Product`: `nil` windows pass the other window through; two
non-`nil` windows of different lengths are an error (`none`); otherwise the
element-wise product. -/
def windowProduct : Option (List ℚ) → Option (List ℚ) → Option (Option (List ℚ))
  | none, w2 => some w2
  | w1, none => some w1
  | some w1, some w2 =>
    if w1.length ≠ w2.length then none
    else some (some (List.zipWith (· * ·) w1 w2))

/-- `TSMBuffer.ApplyWindow`: no-op on zero channels, panics when the window
length differs from the channel length, otherwise multiplies each channel
element-wise by the window.  (All channels share a length in every use.) -/
def applyWindow (b : Block) (w : List ℚ) : Option Block :=
  if b.length = 0 then some b
  else if (b.headD []).length ≠ w.length then none
  else some (b.map fun ch => List.zipWith (· * ·) ch w)

/-! ### tsm.TSM -/

/-- `tsm.Settings`, with the `Converter` interface represented by its two
methods over an abstract converter-state type `σ` (`convert` returns the new
state and the synthesis frame).  `AnalysisHop` is the one field of the Go
struct the engine mutates after construction (`SetSpeed`), so it is kept in
the `TSM` record below rather than here; all the fields here are fixed for
the lifetime of the engine. -/
structure Settings (σ : Type) where
  channels : ℕ
  synthesisHop : ℕ
  frameLength : ℕ
  analysisWindow : Option (List ℚ)
  synthesisWindow : Option (List ℚ)
  deltaBefore : ℕ
  deltaAfter : ℕ
  convert : σ → Block → σ × Block
  clearConv : σ → σ

/-- `tsm.TSM` over the fixed settings `s`.  `analysisFrame` is not part of
the state: `processFrame` is only ever invoked when the input buffer is
completely full, so its `Peek` overwrites the whole frame and the frame is
equivalent to a local value.  `skipInputSamples` and `skipOutputSamples` are
clamped to be non-negative at every assignment in the source, so they are
`ℕ` here. -/
structure TSM {σ : Type} (s : Settings σ) where
  analysisHop : ℤ
  skipInputSamples : ℕ
  normalizeWindow : List ℚ
  skipOutputSamples : ℕ
  inBuffer : CBuffer
  outBuffer : CBuffer
  normalizeBuffer : NormalizeBuffer
  convState : σ
  deriving DecidableEq

/-- `TSM.Clear`: removes `frameLength` samples from each buffer, re-primes the
input with `deltaBefore + frameLength/2` readable samples, sets
`skipOutputSamples = frameLength/2` and clears the converter.  The
`SetReadable` can panic (`none`). -/
def TSM.clear {s : Settings σ} (t : TSM s) : Option (TSM s) := do
  let inB := t.inBuffer.remove s.frameLength
  let outB := t.outBuffer.remove s.frameLength
  let nb := t.normalizeBuffer.remove s.frameLength
  let inB ← inB.setReadable (s.deltaBefore + s.frameLength / 2)
  pure { t with
    inBuffer := inB, outBuffer := outB, normalizeBuffer := nb,
    skipOutputSamples := s.frameLength / 2,
    convState := s.clearConv t.convState }

/-- `tsm.New(s)`: builds the normalize window with `window.Product` (an error
there fails construction), allocates the buffers, and calls `Clear`. -/
def mkTSM (s : Settings σ) (analysisHop : ℤ) (initConv : σ) : Option (TSM s) := do
  let nw ← windowProduct s.analysisWindow s.synthesisWindow
  TSM.clear
    { analysisHop := analysisHop, skipInputSamples := 0,
      normalizeWindow := nw.getD [], skipOutputSamples := 0,
      inBuffer := CBuffer.new s.channels (s.deltaBefore + s.frameLength + s.deltaAfter),
      outBuffer := CBuffer.new s.channels s.frameLength,
      normalizeBuffer := NormalizeBuffer.new s.frameLength,
      convState := initConv }

/-- `TSM.processFrame`: peek the analysis frame, remove `analysisHop` input
samples, window, convert, window, overlap-add into the output, accumulate the
normalize window, divide and release the first `synthesisHop` output samples.
The input buffer is full at every call site, so the `Peek` yields exactly
`deltaBefore + frameLength + deltaAfter` samples.  `analysisHop` is assumed
non-negative (the `.toNat`); every constructor in the repository produces a
non-negative hop. -/
def TSM.processFrame {s : Settings σ} (t : TSM s) : Option (TSM s) := do
  let analysisFrame0 :=
    (t.inBuffer.peek (s.deltaBefore + s.frameLength + s.deltaAfter)).2
  let inB := t.inBuffer.remove t.analysisHop.toNat
  let analysisFrame ← match s.analysisWindow with
    | none => pure analysisFrame0
    | some w => applyWindow analysisFrame0 w
  let conv := s.convert t.convState analysisFrame
  let synthesisFrame ← match s.synthesisWindow with
    | none => pure conv.2
    | some w => applyWindow conv.2 w
  let outB ← t.outBuffer.add synthesisFrame
  let nb ← t.normalizeBuffer.add t.normalizeWindow
  let outB ← outB.divide nb s.synthesisHop
  let nb := nb.remove s.synthesisHop
  let outB ← outB.setReadable s.synthesisHop
  pure { t with inBuffer := inB, outBuffer := outB, normalizeBuffer := nb, convState := conv.1 }

/-- `TSM.Put(buffer)`.  The source reads

    n := 0
    if t.skipInputSamples >= buffer.Len() {
        n = buffer.Len()
    } else {
        n := t.skipInputSamples
        n += t.inBuffer.Write(buffer.Slice(t.skipInputSamples, buffer.Len()))
    }
    t.skipInputSamples -= n

the `n :=` in the `else` branch declares a new variable shadowing the outer
`n`, so in that branch the outer `n` keeps the value `0`: the samples are
written into the input buffer but neither the decrement nor the return value
sees the count. -/
def TSM.put {s : Settings σ} (t : TSM s) (buffer : Block) : Option (ℕ × TSM s) := do
  let (n, t1) ←
    if blockLen buffer ≤ t.skipInputSamples then
      pure (blockLen buffer, t)
    else do
      let w ← t.inBuffer.write (blockSlice buffer t.skipInputSamples (blockLen buffer))
      let _shadowedN := t.skipInputSamples + w.1
      pure (0, { t with inBuffer := w.2 })
  let t2 := { t1 with skipInputSamples := t1.skipInputSamples - n }
  if t2.inBuffer.remainingSpace = 0 ∧ s.frameLength ≤ t2.outBuffer.remainingSpace then do
    let t3 ← t2.processFrame
    let t4 :=
      if t3.outBuffer.len < t3.skipOutputSamples then
        { t3 with outBuffer := t3.outBuffer.remove t3.outBuffer.len,
                  skipOutputSamples := t3.skipOutputSamples - t3.outBuffer.len }
      else if 0 < t3.skipOutputSamples then
        { t3 with outBuffer := t3.outBuffer.remove t3.skipOutputSamples,
                  skipOutputSamples := 0 }
      else t3
    pure (n, { t4 with skipInputSamples := (t4.analysisHop - s.frameLength).toNat })
  else
    pure (n, t2)

/-- `TSM.Receive(buffer)`: reads from the output buffer; returns the count,
the samples, and the new state. -/
def TSM.receive {s : Settings σ} (t : TSM s) (destLen : ℕ) : ℕ × Block × TSM s :=
  let r := t.outBuffer.read destLen
  (r.1, r.2.1, { t with outBuffer := r.2.2 })

/-- `TSM.Flush(buffer)`.  The source reads

    expectedLength := buffer.Len()
    length := t.outBuffer.Read(buffer)
    if expectedLength < buffer.Len() {
        t.Clear()
    }
    return length

`buffer.Len()` is unchanged by `Read`, so the condition compares
`expectedLength` with itself. -/
def TSM.flush {s : Settings σ} (t : TSM s) (destLen : ℕ) : Option (ℕ × Block × TSM s) := do
  let expectedLength := destLen
  let r := t.outBuffer.read destLen
  let t1 := { t with outBuffer := r.2.2 }
  let t2 ← if expectedLength < destLen then t1.clear else pure t1
  pure (r.1, r.2.1, t2)

/-- `TSM.RemainingInputSpace()`. -/
def TSM.remainingInputSpace {s : Settings σ} (t : TSM s) : ℕ :=
  t.skipInputSamples + t.inBuffer.remainingSpace

/-- Go's `int(x)` conversion on a non-integer value: truncation toward zero. -/
def goTrunc (q : ℚ) : ℤ := if q < 0 then -⌊-q⌋ else ⌊q⌋

/-- `TSM.SetSpeed(speed)`: `t.s.AnalysisHop = int(float64(t.s.SynthesisHop) * speed)`. -/
def TSM.setSpeed {s : Settings σ} (t : TSM s) (speed : ℚ) : TSM s :=
  { t with analysisHop := goTrunc (s.synthesisHop * speed) }

/-! ### wsola -/

/-- `wsola.crossCorrelation(buffer1, buffer2, offset)`:
`Σ_i buffer1[i] * buffer2[offset+i]`.  The Go loop panics when `buffer2` is
too short; the claims only use it on in-range inputs, where the truncating
`zipWith` agrees with the source. -/
def crossCorrelation (buffer1 buffer2 : List ℚ) (offset : ℕ) : ℚ :=
  (List.zipWith (· * ·) buffer1 (buffer2.drop offset)).sum

/-- The loop of `wsola.maximizeCrossCorrelation`: `delta` runs over `steps`
successive values, and `(maxDelta, maxValue)` advances only on a strictly
greater correlation. -/
def maximizeLoop (b1 b2 : List ℚ) : ℕ → ℕ → ℚ → ℕ → ℕ × ℚ
  | _, maxDelta, maxValue, 0 => (maxDelta, maxValue)
  | delta, maxDelta, maxValue, steps + 1 =>
    let value := crossCorrelation b1 b2 delta
    if maxValue < value then maximizeLoop b1 b2 (delta + 1) delta value steps
    else maximizeLoop b1 b2 (delta + 1) maxDelta maxValue steps

/-- `wsola.maximizeCrossCorrelation(buffer1, buffer2, tolerance)`: scans
`delta` from `1` to `2*tolerance - 1` starting from
`(0, crossCorrelation(..., 0))`, and returns `tolerance` instead when the
maximal correlation found is exactly zero. -/
def maximizeCrossCorrelation (b1 b2 : List ℚ) (tolerance : ℕ) : ℕ :=
  let r := maximizeLoop b1 b2 1 0 (crossCorrelation b1 b2 0) (2 * tolerance - 1)
  if r.2 = 0 then tolerance else r.1

/-- The `wsolaConverter`'s mutable state: the natural-progression buffer. -/
structure WsolaState where
  naturalProgression : Block
  deriving DecidableEq, Repr

/-- `wsolaConverter.Convert`: per channel, pick the offset maximizing the
cross-correlation with the natural progression, record the next natural
progression (`analysisFrame[delta+synthesisHop : delta+synthesisHop+frameLength]`)
and emit `analysisFrame[delta : delta+frameLength]` as the synthesis frame. -/
def wsolaConvert (frameLength synthesisHop tolerance : ℕ)
    (st : WsolaState) (af : Block) : WsolaState × Block :=
  let results := List.zipWith
    (fun npk afk =>
      let delta := maximizeCrossCorrelation npk afk tolerance
      ((afk.drop (delta + synthesisHop)).take frameLength,
       (afk.drop delta).take frameLength))
    st.naturalProgression af
  ({ naturalProgression := results.map Prod.fst }, results.map Prod.snd)

/-- `wsolaConverter.Clear`: reset the natural progression to silence. -/
def wsolaClear (st : WsolaState) : WsolaState :=
  { naturalProgression := st.naturalProgression.map fun ch => List.replicate ch.length 0 }

/-- `wsola.New(channels, analysisHop, synthesisHop, frameLength, tolerance)`'s
settings: a Hanning synthesis window, `DeltaBefore = tolerance`,
`DeltaAfter = tolerance + synthesisHop`.  (The window list is a parameter
here; the counterexamples instantiate it with the exact values of
`window.Hanning(4)`.) -/
def wsolaSettings (channels synthesisHop frameLength tolerance : ℕ)
    (synthesisWindow : List ℚ) : Settings WsolaState :=
  { channels := channels, synthesisHop := synthesisHop,
    frameLength := frameLength, analysisWindow := none,
    synthesisWindow := some synthesisWindow,
    deltaBefore := tolerance, deltaAfter := tolerance + synthesisHop,
    convert := wsolaConvert frameLength synthesisHop tolerance,
    clearConv := wsolaClear }

/-! ### Reachability of engine states

`Reachable s init t` holds when the engine state `t` can be produced from a
freshly constructed engine (`tsm.New` with settings `s` and initial converter
state `init`) by a sequence of public operations that do not panic. -/

inductive Reachable (s : Settings σ) (analysisHop : ℤ) (init : σ) : TSM s → Prop
  | base (t : TSM s) : mkTSM s analysisHop init = some t → Reachable s analysisHop init t
  | putStep (t : TSM s) (b : Block) (n : ℕ) (t' : TSM s) :
      Reachable s analysisHop init t → t.put b = some (n, t') →
      Reachable s analysisHop init t'
  | receiveStep (t : TSM s) (d : ℕ) :
      Reachable s analysisHop init t → Reachable s analysisHop init (t.receive d).2.2
  | flushStep (t : TSM s) (d n : ℕ) (smp : Block) (t' : TSM s) :
      Reachable s analysisHop init t → t.flush d = some (n, smp, t') →
      Reachable s analysisHop init t'
  | clearStep (t t' : TSM s) :
      Reachable s analysisHop init t → t.clear = some t' →
      Reachable s analysisHop init t'
  | setSpeedStep (t : TSM s) (sp : ℚ) :
      Reachable s analysisHop init t → Reachable s analysisHop init (t.setSpeed sp)

/-! ### Concrete engine states used in counterexamples and witnesses -/

/-- A minimal valid configuration: one channel, identity converter (as in
package `ola`), no windows, `analysisHop = synthesisHop = frameLength = 4`. -/
def identitySettings : Settings Unit :=
  { channels := 1, synthesisHop := 4, frameLength := 4,
    analysisWindow := none, synthesisWindow := none,
    deltaBefore := 0, deltaAfter := 0,
    convert := fun s f => (s, f), clearConv := id }

/-- The state `tsm.New(identitySettings)` (with `AnalysisHop = 4`) produces
(checked below). -/
def putDemo : TSM identitySettings :=
  { analysisHop := 4, skipInputSamples := 0, normalizeWindow := [],
    skipOutputSamples := 2,
    inBuffer := ⟨[[0, 0, 0, 0]], 4, 0, 2⟩,
    outBuffer := ⟨[[0, 0, 0, 0]], 4, 0, 0⟩,
    normalizeBuffer := ⟨[0, 0, 0, 0], 0⟩, convState := () }

/-- `putDemo` with the output-skip already consumed: an engine state whose
output buffer is empty, so `Flush` produces fewer samples than requested. -/
def flushDemo : TSM identitySettings :=
  { analysisHop := 4, skipInputSamples := 0, normalizeWindow := [],
    skipOutputSamples := 0,
    inBuffer := ⟨[[0, 0, 0, 0]], 4, 0, 2⟩,
    outBuffer := ⟨[[0, 0, 0, 0]], 4, 0, 0⟩,
    normalizeBuffer := ⟨[0, 0, 0, 0], 0⟩, convState := () }

/-- A WSOLA engine (`wsola.New(1, 2, 2, 4, 1)`): `deltaBefore = 1`,
`deltaAfter = 3`, input-buffer capacity `8`.  `[0, 1/2, 1, 1/2]` is
`window.Hanning(4)` computed exactly. -/
def wsolaDemoSettings : Settings WsolaState := wsolaSettings 1 2 4 1 [0, 1/2, 1, 1/2]

/-- `multichannel.NewTSMBuffer(1, 4)`: the initial natural progression. -/
def wsolaInit : WsolaState := ⟨[List.replicate 4 0]⟩

/-- The freshly constructed WSOLA engine
(`mkTSM wsolaDemoSettings 2 wsolaInit`). -/
def wsolaW0 : TSM wsolaDemoSettings :=
  { analysisHop := 2, skipInputSamples := 0,
    normalizeWindow := [0, 1/2, 1, 1/2], skipOutputSamples := 2,
    inBuffer := ⟨[[0, 0, 0, 0, 0, 0, 0, 0]], 8, 0, 3⟩,
    outBuffer := ⟨[[0, 0, 0, 0]], 4, 0, 0⟩,
    normalizeBuffer := ⟨[0, 0, 0, 0], 0⟩,
    convState := ⟨[[0, 0, 0, 0]]⟩ }

/-- `wsolaW0` after `Put` of five unit samples (one frame processed, the
half-frame output skip consumed). -/
def wsolaW1 : TSM wsolaDemoSettings :=
  { analysisHop := 2, skipInputSamples := 0,
    normalizeWindow := [0, 1/2, 1, 1/2], skipOutputSamples := 0,
    inBuffer := ⟨[[0, 0, 0, 1, 1, 1, 1, 1]], 8, 2, 6⟩,
    outBuffer := ⟨[[0, 0, 1, 1/2]], 4, 2, 0⟩,
    normalizeBuffer := ⟨[0, 0, 1, 1/2], 2⟩,
    convState := ⟨[[1, 1, 1, 1]]⟩ }

/-- `wsolaW1` after `Put` of two unit samples (a second frame processed; two
output samples now readable). -/
def wsolaW2 : TSM wsolaDemoSettings :=
  { analysisHop := 2, skipInputSamples := 0,
    normalizeWindow := [0, 1/2, 1, 1/2], skipOutputSamples := 0,
    inBuffer := ⟨[[1, 1, 0, 0, 1, 1, 1, 1]], 8, 4, 6⟩,
    outBuffer := ⟨[[1, 1/2, 1, 1]], 4, 2, 2⟩,
    normalizeBuffer := ⟨[1, 1/2, 0, 0], 0⟩,
    convState := ⟨[[1, 1, 1, 1]]⟩ }

/-- `wsolaW2` after `Put` of two more unit samples: the input buffer is now
completely full (8 readable samples) while the output buffer, not yet
drained, blocks processing. -/
def wsolaW3 : TSM wsolaDemoSettings :=
  { analysisHop := 2, skipInputSamples := 0,
    normalizeWindow := [0, 1/2, 1, 1/2], skipOutputSamples := 0,
    inBuffer := ⟨[[1, 1, 1, 1, 1, 1, 1, 1]], 8, 4, 8⟩,
    outBuffer := ⟨[[1, 1/2, 1, 1]], 4, 2, 2⟩,
    normalizeBuffer := ⟨[1, 1/2, 0, 0], 0⟩,
    convState := ⟨[[1, 1, 1, 1]]⟩ }

/-- `wsolaW3` after `Clear`: `Remove(frameLength)` only removed 4 of the 8
buffered input samples, so 4 unit samples survive into the "fresh" stream. -/
def wsolaW3c : TSM wsolaDemoSettings :=
  { analysisHop := 2, skipInputSamples := 0,
    normalizeWindow := [0, 1/2, 1, 1/2], skipOutputSamples := 2,
    inBuffer := ⟨[[1, 1, 1, 1, 0, 0, 0, 0]], 8, 0, 7⟩,
    outBuffer := ⟨[[1, 1/2, 0, 0]], 4, 0, 0⟩,
    normalizeBuffer := ⟨[0, 0, 0, 0], 0⟩,
    convState := ⟨[[0, 0, 0, 0]]⟩ }

/-- A circular buffer holding one readable sample (`5`), used to refute the
unconditional write/read round-trip. -/
def roundtripDemo : CBuffer := ⟨[[5, 0]], 2, 0, 1⟩

/-- "The maximal correlation value found is exactly zero" over the offsets
`[0, n)`: every value is `≤ 0` and some value is `0`. -/
def maxIsZero (f : ℕ → ℚ) (n : ℕ) : Prop :=
  (∀ δ < n, f δ ≤ 0) ∧ (∃ δ < n, f δ = 0)

instance (f : ℕ → ℚ) (n : ℕ) : Decidable (maxIsZero f n) := by
  unfold maxIsZero; infer_instance

/-- The normalization weight at offset `i` from the cursor
(`b.data[(b.pointer+i) % len(b.data)]`): the value `Get(i)` returns when it
does not panic. -/
def wval (nb : NormalizeBuffer) (i : ℕ) : ℚ :=
  nb.data.getD ((nb.pointer + i) % nb.data.length) 0

/-! ## Theorems -/

unseal Rat.mul Rat.inv Rat.add Rat.sub Rat.ofScientific Nat.gcd in
/-- Claim C1: `Put` is claimed to return the number of samples absorbed
(skipped plus buffered), and offering exactly `remainingInputSpace()` samples
is claimed to make `Put` report all offered samples as consumed.  The code
refutes this: on the freshly constructed engine `putDemo`
(`skipInputSamples = 0`, two free input slots), `Put` of one sample stores it
in the input buffer (readable length grows from 2 to 3) yet returns `0`, and
`Put` of exactly `remainingInputSpace() = 2` samples also returns `0` — the
`n :=` in the `else` branch of the source shadows the outer `n`. -/
theorem put_reports_zero_despite_consuming :
    mkTSM identitySettings 4 () = some putDemo ∧
    putDemo.inBuffer.length = 2 ∧
    (putDemo.put [[7]]).map (fun r => (r.1, r.2.inBuffer.length)) = some (0, 3) ∧
    putDemo.remainingInputSpace = 2 ∧
    (putDemo.put [[5, 6]]).map Prod.fst = some 0 :=
  ⟨by decide, by decide, by decide, by decide, by decide⟩

unseal Rat.mul Rat.inv Rat.add Rat.sub Rat.ofScientific Nat.gcd in
/-- Claim C2: `Flush` is claimed to call `Clear` exactly when it produced
fewer samples than requested.  The code's condition
`expectedLength < buffer.Len()` compares the destination length with itself,
so `Clear` is never called: `Flush` behaves exactly like `Receive` on every
state, and on `flushDemo` (empty output buffer) a flush of one sample
produces `0 < 1` samples yet leaves `skipOutputSamples = 0`, whereas `Clear`
would set it to `frameLength/2 = 2`. -/
theorem flush_never_clears :
    (∀ (σ : Type) (s : Settings σ) (t : TSM s) (d : ℕ), t.flush d = some (t.receive d)) ∧
    (flushDemo.flush 1).map (fun r => (r.1, r.2.2.skipOutputSamples)) = some (0, 0) ∧
    flushDemo.clear.map (fun t => t.skipOutputSamples) = some 2 := by
  refine ⟨fun σ s t d => ?_, by decide, by decide⟩
  simp [TSM.flush, TSM.receive]

unseal Rat.mul Rat.inv Rat.add Rat.sub Rat.ofScientific Nat.gcd in
/-- Claim C4 (counterexample): `SetSpeed` is claimed to set
`analysisHop = round(synthesisHop · ratio)`.  On `putDemo`
(`synthesisHop = 4`) with ratio `9/10` the code stores
`int(4 · 0.9) = 3`, while the nearest integer to `3.6` is `4`. -/
theorem setSpeed_not_round_counterexample :
    identitySettings.synthesisHop = 4 ∧
    (putDemo.setSpeed (9 / 10)).analysisHop = 3 ∧
    round ((4 : ℚ) * (9 / 10)) = 4 ∧ (3 : ℤ) ≠ 4 := by
  refine ⟨by decide, ?_, ?_, by decide⟩
  · show goTrunc ((4 : ℚ) * (9 / 10)) = 3
    rw [goTrunc, if_neg (by norm_num)]
    norm_num [Int.floor_eq_iff]
  · rw [round_eq]
    norm_num [Int.floor_eq_iff]

/-- Claim C8: `Get(i)` is claimed to panic for every `i` outside `[0, n)`.
The source checks `i > len(b.data)` instead of `i >= len(b.data)`, so for
`i = n` (here `n = 2`, buffer `[5, 7]`, cursor `0`) the access wraps modulo
the capacity and silently returns the weight at the cursor, `5`, instead of
panicking; `i = -1` and `i = 3` do panic, and in-range indices are served
from offset `i` after the cursor. -/
theorem get_out_of_bounds_wraps :
    NormalizeBuffer.get ⟨[5, 7], 0⟩ 2 = some 5 ∧
    ([5, 7] : List ℚ).length = 2 ∧
    NormalizeBuffer.get ⟨[5, 7], 0⟩ (-1) = none ∧
    NormalizeBuffer.get ⟨[5, 7], 0⟩ 3 = none ∧
    NormalizeBuffer.get ⟨[5, 7], 1⟩ 1 = some 5 :=
  ⟨rfl, rfl, rfl, rfl, rfl⟩

unseal Rat.mul Rat.inv Rat.add Rat.sub Rat.ofScientific Nat.gcd in
/-- Claim C9 (counterexample): the claimed round-trip is quantified over
every buffer state, but when readable samples are already present, `Read`
returns the oldest readable samples, not the block just written: on
`roundtripDemo` (one readable sample `5`), writing `[7]` (which fits) and
reading one sample back yields `[5]`, not `[7]`. -/
theorem write_read_not_roundtrip_counterexample :
    roundtripDemo.wf ∧
    blockLen [[(7 : ℚ)]] ≤ roundtripDemo.remainingSpace ∧
    (roundtripDemo.write [[7]]).map (fun r => (r.1, (r.2.read 1).2.1)) = some (1, [[5]]) ∧
    ([[(5 : ℚ)]] : Block) ≠ [[7]] :=
  ⟨by decide, by decide, by decide, by decide⟩

unseal Rat.mul Rat.inv Rat.add Rat.sub Rat.ofScientific Nat.gcd in
/-- Claim C3 (counterexample): `Clear` is claimed to leave, from any
reachable state, exactly `deltaBefore + frameLength/2` readable zero samples
in the input buffer.  On the WSOLA engine `wsolaDemoSettings` the input
buffer has capacity `deltaBefore + frameLength + deltaAfter = 8 > frameLength`,
and the reachable state `wsolaW3` (input buffer full, output not yet drained)
is cleared to `7 ≠ 1 + 4/2 = 3` readable samples, four of which are the
caller's unit samples rather than zeros — `Clear` removes only `frameLength`
input samples. -/
theorem clear_not_reset_counterexample :
    ∃ t : TSM wsolaDemoSettings, Reachable wsolaDemoSettings 2 wsolaInit t ∧
      ∃ t', t.clear = some t' ∧
        t'.inBuffer.length ≠
          wsolaDemoSettings.deltaBefore + wsolaDemoSettings.frameLength / 2 ∧
        (t'.inBuffer.peek t'.inBuffer.length).2 ≠ [List.replicate t'.inBuffer.length 0] := by
  refine ⟨wsolaW3, ?_, wsolaW3c, by decide, by decide, by decide⟩
  exact Reachable.putStep wsolaW2 [[1, 1]] 0 wsolaW3
    (Reachable.putStep wsolaW1 [[1, 1]] 0 wsolaW2
      (Reachable.putStep wsolaW0 [[1, 1, 1, 1, 1]] 0 wsolaW1
        (Reachable.base wsolaW0 (by decide)) (by decide)) (by decide)) (by decide)

/-- Claim C4 (amended): for every engine state and every speed ratio,
`SetSpeed` sets `analysisHop` to the product `synthesisHop · ratio`
truncated toward zero (the Go `int` conversion): the floor for non-negative
products and the ceiling for negative ones — not the nearest integer — and
leaves every other piece of engine state unchanged (the remaining settings
are fixed by construction in this model). -/
theorem setSpeed_truncates (σ : Type) (s : Settings σ) (t : TSM s) (speed : ℚ) :
    (0 ≤ (s.synthesisHop : ℚ) * speed →
      (t.setSpeed speed).analysisHop = ⌊(s.synthesisHop : ℚ) * speed⌋) ∧
    ((s.synthesisHop : ℚ) * speed < 0 →
      (t.setSpeed speed).analysisHop = ⌈(s.synthesisHop : ℚ) * speed⌉) ∧
    (t.setSpeed speed).skipInputSamples = t.skipInputSamples ∧
    (t.setSpeed speed).skipOutputSamples = t.skipOutputSamples ∧
    (t.setSpeed speed).normalizeWindow = t.normalizeWindow ∧
    (t.setSpeed speed).inBuffer = t.inBuffer ∧
    (t.setSpeed speed).outBuffer = t.outBuffer ∧
    (t.setSpeed speed).normalizeBuffer = t.normalizeBuffer ∧
    (t.setSpeed speed).convState = t.convState := by
  refine ⟨?_, ?_, rfl, rfl, rfl, rfl, rfl, rfl, rfl⟩
  · intro h
    show goTrunc ((s.synthesisHop : ℚ) * speed) = _
    rw [goTrunc, if_neg (not_lt.mpr h)]
  · intro h
    show goTrunc ((s.synthesisHop : ℚ) * speed) = _
    rw [goTrunc, if_pos h, Int.floor_neg, neg_neg]

/-- Witness for `setSpeed_truncates` at the concrete engine `putDemo` with
ratio `9/10`. -/
theorem setSpeed_truncates_witness :
    (putDemo.setSpeed (9 / 10)).analysisHop = ⌊(identitySettings.synthesisHop : ℚ) * (9 / 10)⌋ :=
  (setSpeed_truncates Unit identitySettings putDemo (9 / 10)).1 (by norm_num [identitySettings])

/-- Invariant of the `maximizeCrossCorrelation` scan: starting from a best
offset `md < delta` whose value `mv` dominates all offsets below `delta`
(strictly below `md`), running `steps` more iterations yields the least
offset attaining the maximum over `[0, delta + steps)`. -/
theorem maximizeLoop_invariant (b1 b2 : List ℚ) :
    ∀ (steps delta md : ℕ) (mv : ℚ),
      mv = crossCorrelation b1 b2 md →
      md < delta →
      (∀ j, j < delta → crossCorrelation b1 b2 j ≤ mv) →
      (∀ j, j < md → crossCorrelation b1 b2 j < mv) →
      (maximizeLoop b1 b2 delta md mv steps).2 =
          crossCorrelation b1 b2 (maximizeLoop b1 b2 delta md mv steps).1 ∧
      (maximizeLoop b1 b2 delta md mv steps).1 < delta + steps ∧
      (∀ j, j < delta + steps →
        crossCorrelation b1 b2 j ≤ (maximizeLoop b1 b2 delta md mv steps).2) ∧
      (∀ j, j < (maximizeLoop b1 b2 delta md mv steps).1 →
        crossCorrelation b1 b2 j < (maximizeLoop b1 b2 delta md mv steps).2) := by
  intro steps
  induction steps with
  | zero =>
    intro delta md mv hmv hlt hmax hstrict
    simp only [maximizeLoop]
    exact ⟨hmv, by omega, fun j hj => hmax j (by omega), hstrict⟩
  | succ k ih =>
    intro delta md mv hmv hlt hmax hstrict
    rw [maximizeLoop]
    by_cases hv : mv < crossCorrelation b1 b2 delta
    · rw [if_pos hv]
      have h := ih (delta + 1) delta (crossCorrelation b1 b2 delta) rfl (Nat.lt_succ_self delta)
        (fun j hj => by
          rcases Nat.lt_succ_iff_lt_or_eq.mp hj with h' | h'
          · exact le_of_lt (lt_of_le_of_lt (hmax j h') hv)
          · exact le_of_eq (by rw [h']))
        (fun j hj => lt_of_le_of_lt (hmax j hj) hv)
      refine ⟨h.1, by omega, fun j hj => h.2.2.1 j (by omega), h.2.2.2⟩
    · rw [if_neg hv]
      have h := ih (delta + 1) md mv hmv (Nat.lt_succ_of_lt hlt)
        (fun j hj => by
          rcases Nat.lt_succ_iff_lt_or_eq.mp hj with h' | h'
          · exact hmax j h'
          · exact le_of_not_lt (by rw [h']; exact hv))
        hstrict
      refine ⟨h.1, by omega, fun j hj => h.2.2.1 j (by omega), h.2.2.2⟩

/-- Claim C5: for a positive tolerance and a candidate buffer long enough for
every scanned offset (shorter candidates panic in the Go source), the offset
search returns the offset in `[0, 2·tolerance)` with the strictly largest
cross-correlation, keeping the lowest offset on ties or non-improvements —
except that when the maximum correlation value found is exactly zero it
returns `tolerance`. -/
theorem maximizeCrossCorrelation_spec (b1 b2 : List ℚ) (tolerance : ℕ)
    (htol : 1 ≤ tolerance)
    (_hlen : b1.length + (2 * tolerance - 1) ≤ b2.length) :
    (maxIsZero (crossCorrelation b1 b2) (2 * tolerance) →
      maximizeCrossCorrelation b1 b2 tolerance = tolerance) ∧
    (¬ maxIsZero (crossCorrelation b1 b2) (2 * tolerance) →
      maximizeCrossCorrelation b1 b2 tolerance < 2 * tolerance ∧
      (∀ δ, δ < 2 * tolerance →
        crossCorrelation b1 b2 δ ≤
          crossCorrelation b1 b2 (maximizeCrossCorrelation b1 b2 tolerance)) ∧
      (∀ δ, δ < maximizeCrossCorrelation b1 b2 tolerance →
        crossCorrelation b1 b2 δ <
          crossCorrelation b1 b2 (maximizeCrossCorrelation b1 b2 tolerance))) := by
  have H := maximizeLoop_invariant b1 b2 (2 * tolerance - 1) 1 0 (crossCorrelation b1 b2 0)
    rfl Nat.one_pos
    (fun j hj => by
      have : j = 0 := by omega
      rw [this])
    (fun j hj => absurd hj (Nat.not_lt_zero j))
  have harith : 1 + (2 * tolerance - 1) = 2 * tolerance := by omega
  rw [harith] at H
  unfold maximizeCrossCorrelation
  constructor
  · intro hz
    have hle : (maximizeLoop b1 b2 1 0 (crossCorrelation b1 b2 0) (2 * tolerance - 1)).2 ≤ 0 :=
      H.1 ▸ hz.1 _ H.2.1
    obtain ⟨δ0, hδ0, hfδ0⟩ := hz.2
    have hge : (0 : ℚ) ≤ (maximizeLoop b1 b2 1 0 (crossCorrelation b1 b2 0) (2 * tolerance - 1)).2 :=
      hfδ0 ▸ H.2.2.1 δ0 hδ0
    rw [if_pos (le_antisymm hle hge)]
  · intro hnz
    rw [if_neg ?hne]
    case hne =>
      intro h0
      exact hnz ⟨fun δ hδ => h0 ▸ H.2.2.1 δ hδ, _, H.2.1, h0 ▸ H.1.symm⟩
    exact ⟨H.2.1, fun δ hδ => H.1 ▸ H.2.2.1 δ hδ, fun δ hδ => H.1 ▸ H.2.2.2 δ hδ⟩

unseal Rat.mul Rat.inv Rat.add Rat.sub Rat.ofScientific Nat.gcd in
/-- Witness for `maximizeCrossCorrelation_spec`: reference `[1]`, candidate
`[1, 2, 0]`, tolerance `1` — no silence, so the search picks offset `1`
(correlation `2` beats `1` at offset `0`). -/
theorem maximizeCrossCorrelation_spec_witness :
    ¬ maxIsZero (crossCorrelation [1] [1, 2, 0]) 2 ∧
    maximizeCrossCorrelation [1] [1, 2, 0] 1 < 2 ∧
    maximizeCrossCorrelation [1] [1, 2, 0] 1 = 1 := by
  have hmz : ¬ maxIsZero (crossCorrelation [1] [1, 2, 0]) 2 := by decide
  have h := maximizeCrossCorrelation_spec [1] [1, 2, 0] 1 (le_refl 1) (by decide)
  exact ⟨hmz, by simpa using (h.2 hmz).1, by decide⟩

/-! ### Helper lemmas about the circular-cell primitives -/

theorem getD_set_self (l : List ℚ) (i : ℕ) (v : ℚ) (h : i < l.length) :
    (l.set i v).getD i 0 = v := by
  simp [List.getD_eq_getElem?_getD, List.getElem?_set_self h]

theorem getD_set_ne (l : List ℚ) (i j : ℕ) (v : ℚ) (h : i ≠ j) :
    (l.set i v).getD j 0 = l.getD j 0 := by
  simp [List.getD_eq_getElem?_getD, List.getElem?_set_ne h]

/-- Two distinct offsets below the modulus land on distinct cells. -/
theorem mod_shift_ne (sz start a b : ℕ) (ha : a < sz) (hb : b < sz) (hne : a ≠ b) :
    (start + a) % sz ≠ (start + b) % sz := by
  intro h
  exact hne (by
    have h2 := Nat.ModEq.add_left_cancel' start (h : (start + a) % sz = (start + b) % sz)
    rwa [Nat.ModEq, Nat.mod_eq_of_lt ha, Nat.mod_eq_of_lt hb] at h2)

theorem applyFrom_length (sz : ℕ) (upd : ℚ → ℚ → ℚ) :
    ∀ (vals l : List ℚ) (start : ℕ), (applyFrom sz upd l start vals).length = l.length := by
  intro vals
  induction vals with
  | nil => intro l start; rfl
  | cons v vs ih => intro l start; rw [applyFrom, ih]; simp

/-- Cells not among the updated positions keep their values. -/
theorem applyFrom_getD_untouched (sz : ℕ) (upd : ℚ → ℚ → ℚ) :
    ∀ (vals l : List ℚ) (start p : ℕ),
      (∀ i, i < vals.length → p ≠ (start + i) % sz) →
      (applyFrom sz upd l start vals).getD p 0 = l.getD p 0 := by
  intro vals
  induction vals with
  | nil => intro l start p _; rfl
  | cons v vs ih =>
    intro l start p h
    rw [applyFrom, ih _ (start + 1) p (fun i hi => by
      have := h (i + 1) (by simpa using Nat.succ_lt_succ hi)
      rwa [show start + (i + 1) = start + 1 + i by omega] at this)]
    exact getD_set_ne _ _ _ _ (fun he => h 0 (by simp) (by rw [← he, Nat.add_zero]))

/-- The cell at offset `i` ends up updated from its original value: the
positions are pairwise distinct as long as at most `sz` cells are written. -/
theorem applyFrom_getD_hit (sz : ℕ) (upd : ℚ → ℚ → ℚ) :
    ∀ (vals l : List ℚ) (start i : ℕ),
      i < vals.length → vals.length ≤ sz → l.length = sz →
      (applyFrom sz upd l start vals).getD ((start + i) % sz) 0 =
        upd (l.getD ((start + i) % sz) 0) (vals.getD i 0) := by
  intro vals
  induction vals with
  | nil => intro l start i hi; exact absurd hi (Nat.not_lt_zero i)
  | cons v vs ih =>
    intro l start i hi hsz hlen
    have hszpos : 0 < sz := by simp at hsz; omega
    cases i with
    | zero =>
      simp only [applyFrom, Nat.add_zero, List.getD_cons_zero]
      rw [applyFrom_getD_untouched sz upd vs _ (start + 1) (start % sz) (fun j hj => by
        have hlt : 1 + j < sz := by simp at hsz; omega
        have hne := mod_shift_ne sz start 0 (1 + j) hszpos hlt (by omega)
        rw [Nat.add_zero] at hne
        rw [show start + 1 + j = start + (1 + j) by omega]
        exact hne)]
      exact getD_set_self _ _ _ (by rw [hlen]; exact Nat.mod_lt start hszpos)
    | succ i' =>
      simp only [applyFrom, List.getD_cons_succ]
      rw [show start + (i' + 1) = start + 1 + i' by omega]
      rw [ih _ (start + 1) i' (by simp at hi ⊢; omega)
        (by simp at hsz ⊢; omega) (by simp [hlen])]
      congr 1
      rw [show start + 1 + i' = start + (1 + i') by omega]
      refine getD_set_ne _ _ _ _ ?_
      have hlt : 1 + i' < sz := by simp at hi hsz; omega
      have hne := mod_shift_ne sz start 0 (1 + i') hszpos hlt (by omega)
      rwa [Nat.add_zero] at hne

/-- Members of a `zipWith` come from paired members of the inputs. -/
theorem mem_zipWith_exists {α β γ : Type} {f : α → β → γ} :
    ∀ {l1 : List α} {l2 : List β} {x : γ}, x ∈ List.zipWith f l1 l2 →
      ∃ a ∈ l1, ∃ b ∈ l2, x = f a b := by
  intro l1
  induction l1 with
  | nil => intro l2 x h; simp at h
  | cons a as ih =>
    intro l2 x h
    cases l2 with
    | nil => simp at h
    | cons b bs =>
      rcases List.mem_cons.mp h with h | h
      · exact ⟨a, List.mem_cons_self a as, b, List.mem_cons_self b bs, h⟩
      · obtain ⟨a', ha', b', hb', hx⟩ := ih h
        exact ⟨a', List.mem_cons_of_mem a ha', b', List.mem_cons_of_mem b hb', hx⟩

/-- A list whose cells are all zero is a `replicate` of zeros. -/
theorem eq_replicate_of_getD (l : List ℚ) (sz : ℕ) (hl : l.length = sz)
    (h : ∀ p, p < sz → l.getD p 0 = 0) : l = List.replicate sz 0 := by
  apply List.ext_getElem (by simpa using hl)
  intro i h1 h2
  have := h i (hl ▸ h1)
  rw [List.getD_eq_getElem?_getD, List.getElem?_eq_getElem h1] at this
  simpa using this

/-- Every cell is hit when a full revolution of offsets is scanned. -/
theorem exists_shift_residue (len p0 p : ℕ) (hlen : 0 < len) (hp : p < len) :
    ∃ j, j < len ∧ (p0 + j) % len = p := by
  have hr : p0 % len < len := Nat.mod_lt p0 hlen
  have hd := Nat.mod_add_div p0 len
  by_cases hc : p0 % len ≤ p
  · refine ⟨p - p0 % len, by omega, ?_⟩
    have : p0 + (p - p0 % len) = len * (p0 / len) + p := by omega
    rw [this, Nat.mul_add_mod, Nat.mod_eq_of_lt hp]
  · refine ⟨len + p - p0 % len, by omega, ?_⟩
    have : p0 + (len + p - p0 % len) = len * (p0 / len + 1) + p := by
      have := hr; ring_nf; omega
    rw [this, Nat.mul_add_mod, Nat.mod_eq_of_lt hp]

/-- `divideLoop` preserves the channel count and each channel's length. -/
theorem divideLoop_shape (sz start : ℕ) (nb : NormalizeBuffer) :
    ∀ (steps i : ℕ) (data data' : List (List ℚ)),
      divideLoop sz start nb i steps data = some data' →
      data'.length = data.length ∧
      (∀ ch' ∈ data', ∃ ch ∈ data, ch'.length = ch.length) := by
  intro steps
  induction steps with
  | zero =>
    intro i data data' h
    simp only [divideLoop, Option.some.injEq] at h
    subst h
    exact ⟨rfl, fun ch' h' => ⟨ch', h', rfl⟩⟩
  | succ k ih =>
    intro i data data' h
    rw [divideLoop] at h
    cases hg : nb.get i with
    | none => rw [hg] at h; simp [Option.bind] at h
    | some v =>
      rw [hg] at h
      simp only [Option.bind] at h
      obtain ⟨h1, h2⟩ := ih (i + 1) _ data' h
      by_cases hc : v < -epsilon ∨ epsilon < v
      · rw [if_pos hc] at h1 h2
        refine ⟨by simpa using h1, fun ch' hch' => ?_⟩
        obtain ⟨ch1, hch1, hlen1⟩ := h2 ch' hch'
        obtain ⟨ch, hch, rfl⟩ := List.mem_map.mp hch1
        exact ⟨ch, hch, by simpa using hlen1⟩
      · rw [if_neg hc] at h1 h2
        exact ⟨h1, h2⟩

/-- Claim C6: for every well-formed circular buffer, the invariant
`length ≤ capacity` (equivalently `remainingSpace() + length = capacity`, with
`0 ≤ length` by the type) holds before the operations and is preserved by
every one of `Write`, `Add`, `Divide`, `Peek` (which does not modify the
buffer), `Read`, `Remove` and `SetReadable` that does not panic. -/
theorem cbuffer_invariant_preserved (c : CBuffer) (hwf : c.wf) :
    c.remainingSpace + c.length = c.size ∧
    (∀ b n c', c.write b = some (n, c') →
      c'.wf ∧ c'.remainingSpace + c'.length = c'.size) ∧
    (∀ b c', c.add b = some c' →
      c'.wf ∧ c'.remainingSpace + c'.length = c'.size) ∧
    (∀ nb n c', c.divide nb n = some c' →
      c'.wf ∧ c'.remainingSpace + c'.length = c'.size) ∧
    (∀ d, ((c.read d).2.2).wf ∧
      ((c.read d).2.2).remainingSpace + ((c.read d).2.2).length = ((c.read d).2.2).size) ∧
    (∀ n, (c.remove n).wf ∧
      (c.remove n).remainingSpace + (c.remove n).length = (c.remove n).size) ∧
    (∀ n c', c.setReadable n = some c' →
      c'.wf ∧ c'.remainingSpace + c'.length = c'.size) := by
  obtain ⟨hch, hlen, hsz⟩ := hwf
  have hremove : ∀ n, (c.remove n).wf ∧
      (c.remove n).remainingSpace + (c.remove n).length = (c.remove n).size := by
    intro n
    have hwf' : (c.remove n).wf := by
      refine ⟨?_, ?_, hsz⟩
      · intro ch' h'
        simp only [CBuffer.remove] at h'
        obtain ⟨ch, hm, rfl⟩ := List.mem_map.mp h'
        rw [zeroFrom, applyFrom_length]
        exact hch ch hm
      · simp only [CBuffer.remove]
        omega
    exact ⟨hwf', by obtain ⟨_, h2, _⟩ := hwf'; simp only [CBuffer.remainingSpace]; omega⟩
  refine ⟨by simp only [CBuffer.remainingSpace]; omega, ?_, ?_, ?_, ?_, hremove, ?_⟩
  · intro b n c' h
    simp only [CBuffer.write] at h
    split at h
    · exact absurd h (by simp)
    · simp only [Option.some.injEq, Prod.mk.injEq] at h
      obtain ⟨-, hc'⟩ := h
      subst hc'
      refine ⟨⟨?_, by simp [CBuffer.remainingSpace]; omega, hsz⟩,
        by simp [CBuffer.remainingSpace]; omega⟩
      intro ch' h'
      obtain ⟨ch, hm, bch, -, rfl⟩ := mem_zipWith_exists h'
      simp only [storeFrom]
      rw [applyFrom_length]
      exact hch ch hm
  · intro b c' h
    simp only [CBuffer.add] at h
    split at h
    · exact absurd h (by simp)
    · split at h
      · exact absurd h (by simp)
      · simp only [Option.some.injEq] at h
        subst h
        refine ⟨⟨?_, by simpa using hlen, hsz⟩, by simp [CBuffer.remainingSpace]; omega⟩
        intro ch' h'
        simp only at h'
        obtain ⟨ch, hm, bch, -, rfl⟩ := mem_zipWith_exists h'
        simp only [addFrom]
        rw [applyFrom_length]
        exact hch ch hm
  · intro nb n c' h
    simp only [CBuffer.divide] at h
    split at h
    · exact absurd h (by simp)
    · obtain ⟨d, hd, hc'⟩ := Option.map_eq_some'.mp h
      subst hc'
      obtain ⟨-, h2⟩ := divideLoop_shape c.size (c.readPointer + c.length) nb n 0 c.data d hd
      refine ⟨⟨?_, by simpa using hlen, hsz⟩, by simp [CBuffer.remainingSpace]; omega⟩
      intro ch' h'
      obtain ⟨ch, hm, hl⟩ := h2 ch' h'
      rw [hl]
      exact hch ch hm
  · intro d
    exact hremove _
  · intro n c' h
    simp only [CBuffer.setReadable] at h
    split at h
    · exact absurd h (by simp)
    · simp only [Option.some.injEq] at h
      subst h
      rename_i hsp
      refine ⟨⟨hch, by simp [CBuffer.remainingSpace] at hsp ⊢; omega, hsz⟩, ?_⟩
      simp only [CBuffer.remainingSpace] at hsp ⊢
      omega

/-- Witness for `cbuffer_invariant_preserved` on a concrete 1×2 buffer:
removing one sample preserves well-formedness. -/
theorem cbuffer_invariant_preserved_witness :
    (CBuffer.new 1 2).wf ∧ ((CBuffer.new 1 2).remove 1).wf :=
  ⟨by decide, ((cbuffer_invariant_preserved (CBuffer.new 1 2) (by decide)).2.2.2.2.2.1 1).1⟩

theorem map_getD_chan (f : List ℚ → List ℚ) (data : List (List ℚ)) (k : ℕ)
    (hk : k < data.length) : (data.map f).getD k [] = f (data.getD k []) := by
  rw [List.getD_eq_getElem?_getD, List.getD_eq_getElem?_getD, List.getElem?_map,
    List.getElem?_eq_getElem hk]
  simp

/-- Updating cells in the writable region (at offsets `length + j` from the
read pointer) does not change what `readFrom` sees of the readable region. -/
theorem readFrom_applyFrom_writable (sz rp length n : ℕ) (upd : ℚ → ℚ → ℚ)
    (ch vals : List ℚ) (hn : n ≤ length) (hlen : length ≤ sz)
    (hv : vals.length ≤ sz - length) :
    readFrom sz (applyFrom sz upd ch (rp + length) vals) rp n = readFrom sz ch rp n := by
  unfold readFrom
  apply List.map_congr_left
  intro i hi
  have hi' : i < n := List.mem_range.mp hi
  apply applyFrom_getD_untouched
  intro j hj
  rw [show rp + length + j = rp + (length + j) by omega]
  exact mod_shift_ne sz rp i (length + j) (by omega) (by omega) (by omega)

/-- Cells outside the positions `(start + j) % sz`, `i ≤ j < i + steps`, are
unchanged by `divideLoop`. -/
theorem divideLoop_getD_untouched (sz start : ℕ) (nb : NormalizeBuffer) :
    ∀ (steps i : ℕ) (data data' : List (List ℚ)) (k p : ℕ),
      divideLoop sz start nb i steps data = some data' →
      (∀ j, i ≤ j → j < i + steps → p ≠ (start + j) % sz) →
      (data'.getD k []).getD p 0 = (data.getD k []).getD p 0 := by
  intro steps
  induction steps with
  | zero =>
    intro i data data' k p h _
    simp only [divideLoop, Option.some.injEq] at h
    subst h; rfl
  | succ st ih =>
    intro i data data' k p h hcond
    rw [divideLoop] at h
    cases hg : nb.get i with
    | none => rw [hg] at h; simp [Option.bind] at h
    | some v =>
      rw [hg] at h
      simp only [Option.bind] at h
      rw [ih (i + 1) _ data' k p h (fun j hj1 hj2 => hcond j (by omega) (by omega))]
      by_cases hc : v < -epsilon ∨ epsilon < v
      · rw [if_pos hc]
        have hne : (start + i) % sz ≠ p :=
          fun he => hcond i le_rfl (by omega) he.symm
        have hnone : ∀ (l : List (List ℚ)), l.length ≤ k → l.getD k [] = [] :=
          fun l hl => by rw [List.getD_eq_getElem?_getD, List.getElem?_eq_none hl]; rfl
        by_cases hk : k < data.length
        · rw [map_getD_chan _ _ _ hk]
          exact getD_set_ne _ _ _ _ hne
        · rw [hnone _ (by simpa using Nat.le_of_not_lt hk), hnone _ (Nat.le_of_not_lt hk)]
      · rw [if_neg hc]

/-- Claim C10: `Add` and `Divide` never change the readable length or the
read cursor, and what `Peek` returns (count and samples) is identical before
and after; the accumulated samples become visible only through
`SetReadable`, which adds exactly `n` to the readable length. -/
theorem add_divide_invisible (c : CBuffer) (hwf : c.wf) :
    (∀ b c', c.add b = some c' →
      c'.length = c.length ∧ c'.readPointer = c.readPointer ∧
      ∀ d, c'.peek d = c.peek d) ∧
    (∀ nb n c', c.divide nb n = some c' →
      c'.length = c.length ∧ c'.readPointer = c.readPointer ∧
      ∀ d, c'.peek d = c.peek d) ∧
    (∀ n c', c.setReadable n = some c' → c'.length = c.length + n) := by
  obtain ⟨hch, hlen, hsz⟩ := hwf
  refine ⟨?_, ?_, ?_⟩
  · intro b c' h
    simp only [CBuffer.add] at h
    split at h
    · exact absurd h (by simp)
    · split at h
      · exact absurd h (by simp)
      · rename_i hchans hany
        have hbc : c.data.length = b.length := by
          simpa [blockChannels] using hchans
        simp only [Option.some.injEq] at h
        subst h
        refine ⟨rfl, rfl, fun d => ?_⟩
        simp only [CBuffer.peek]
        congr 1
        apply List.ext_getElem (by simp [List.length_zipWith, hbc])
        intro k h1 h2
        simp only [List.getElem_map, List.getElem_zipWith]
        apply readFrom_applyFrom_writable _ _ _ _ _ _ _ (Nat.min_le_right d c.length) hlen
        have hkb : k < b.length := by
          simp only [List.length_map, List.length_zipWith] at h1
          omega
        have hmem : b[k] ∈ b := List.getElem_mem hkb
        have := List.any_eq_false.mp (Bool.not_eq_true _ ▸ hany) _ hmem
        simp only [decide_eq_true_eq, Nat.not_lt, CBuffer.remainingSpace] at this
        exact this
  · intro nb n c' h
    simp only [CBuffer.divide] at h
    split at h
    · exact absurd h (by simp)
    · rename_i hsp
      simp only [CBuffer.remainingSpace, Nat.not_lt] at hsp
      obtain ⟨d0, hd0, hc'⟩ := Option.map_eq_some'.mp h
      subst hc'
      obtain ⟨hlen0, hshape⟩ :=
        divideLoop_shape c.size (c.readPointer + c.length) nb n 0 c.data d0 hd0
      refine ⟨rfl, rfl, fun d => ?_⟩
      simp only [CBuffer.peek]
      congr 1
      apply List.ext_getElem (by simpa using hlen0)
      intro k h1 h2
      simp only [List.getElem_map]
      have hgk : ∀ (l : List (List ℚ)) (hk : k < l.length), l[k] = l.getD k [] := by
        intro l hk
        rw [List.getD_eq_getElem?_getD, List.getElem?_eq_getElem hk]
        rfl
      rw [hgk _ (by simpa using h1), hgk _ (by simpa using h2)]
      unfold readFrom
      apply List.map_congr_left
      intro i hi
      have hi' : i < min d c.length := List.mem_range.mp hi
      apply divideLoop_getD_untouched c.size (c.readPointer + c.length) nb n 0 _ _ _ _ hd0
      intro j hj1 hj2
      rw [show c.readPointer + c.length + j = c.readPointer + (c.length + j) by omega]
      exact mod_shift_ne c.size c.readPointer i (c.length + j)
        (by omega) (by omega) (by omega)
  · intro n c' h
    simp only [CBuffer.setReadable] at h
    split at h
    · exact absurd h (by simp)
    · simp only [Option.some.injEq] at h
      subst h
      rfl

unseal Rat.mul Rat.inv Rat.add Rat.sub Rat.ofScientific Nat.gcd in
/-- Witness for `add_divide_invisible` on a concrete buffer with one readable
sample `9`: accumulating `[4]` into the writable cell leaves the readable
length at `1` and `Peek` still sees only `[9]`. -/
theorem add_divide_invisible_witness :
    (⟨[[9, 0]], 2, 0, 1⟩ : CBuffer).add [[4]] = some ⟨[[9, 4]], 2, 0, 1⟩ ∧
    (⟨[[9, 4]], 2, 0, 1⟩ : CBuffer).length = 1 ∧
    (⟨[[9, 4]], 2, 0, 1⟩ : CBuffer).peek 1 = (⟨[[9, 0]], 2, 0, 1⟩ : CBuffer).peek 1 := by
  have h := (add_divide_invisible ⟨[[9, 0]], 2, 0, 1⟩ (by decide)).1 [[4]]
    ⟨[[9, 4]], 2, 0, 1⟩ (by decide)
  exact ⟨by decide, h.1, h.2.2 1⟩

theorem nb_get_of_lt (nb : NormalizeBuffer) (j : ℕ) (hj : j < nb.data.length) :
    nb.get j = some (wval nb j) := by
  unfold NormalizeBuffer.get wval
  rw [if_neg (by push_neg; omega)]
  have hidx : (nb.pointer + ((j : ℤ)).toNat) % nb.data.length < nb.data.length :=
    Nat.mod_lt _ (by omega)
  rw [List.get?_eq_getElem?, List.getElem?_eq_getElem hidx]
  simp [List.getD_eq_getElem?_getD, List.getElem?_eq_getElem
    (show (nb.pointer + j) % nb.data.length < nb.data.length from Nat.mod_lt _ (by omega))]

theorem nb_get_value (nb : NormalizeBuffer) (j : ℕ) (v : ℚ) (h : nb.get j = some v) :
    v = wval nb j := by
  unfold NormalizeBuffer.get at h
  split at h
  · exact absurd h (by simp)
  · rw [List.get?_eq_getElem?] at h
    simp only [Int.toNat_natCast] at h
    rw [wval, List.getD_eq_getElem?_getD, h]
    rfl

/-- `divideLoop` succeeds whenever every scanned `Get` index is in range. -/
theorem divideLoop_isSome (sz start : ℕ) (nb : NormalizeBuffer) :
    ∀ (steps i : ℕ) (data : List (List ℚ)),
      (∀ j, i ≤ j → j < i + steps → j < nb.data.length) →
      ∃ data', divideLoop sz start nb i steps data = some data' := by
  intro steps
  induction steps with
  | zero => intro i data _; exact ⟨data, rfl⟩
  | succ st ih =>
    intro i data hj
    rw [divideLoop, nb_get_of_lt nb i (hj i le_rfl (by omega))]
    simp only [Option.bind]
    exact ih (i + 1) _ (fun j h1 h2 => hj j (by omega) (by omega))

/-- The cell at offset `j` scanned by `divideLoop` ends up divided by the
weight `wval nb j` exactly when that weight clears the epsilon test. -/
theorem divideLoop_getD_hit (sz start : ℕ) (nb : NormalizeBuffer) :
    ∀ (steps i : ℕ) (data data' : List (List ℚ)),
      divideLoop sz start nb i steps data = some data' →
      i + steps ≤ sz →
      (∀ ch ∈ data, ch.length = sz) →
      ∀ j, i ≤ j → j < i + steps → ∀ k, k < data.length →
        (data'.getD k []).getD ((start + j) % sz) 0 =
          (if wval nb j < -epsilon ∨ epsilon < wval nb j
           then (data.getD k []).getD ((start + j) % sz) 0 / wval nb j
           else (data.getD k []).getD ((start + j) % sz) 0) := by
  intro steps
  induction steps with
  | zero => intro i data data' _ _ _ j hj1 hj2; omega
  | succ st ih =>
    intro i data data' h hsz hch j hj1 hj2 k hk
    have hszpos : 0 < sz := by omega
    rw [divideLoop] at h
    cases hg : nb.get i with
    | none => rw [hg] at h; simp [Option.bind] at h
    | some v =>
      rw [hg] at h
      have hv : v = wval nb i := nb_get_value nb i v hg
      subst hv
      have h' : divideLoop sz start nb (i + 1) st
          (if wval nb i < -epsilon ∨ epsilon < wval nb i
           then data.map (fun ch =>
             ch.set ((start + i) % sz) (ch.getD ((start + i) % sz) 0 / wval nb i))
           else data) = some data' := h
      clear h
      by_cases hij : j = i
      · subst hij
        have huntouched : (data'.getD k []).getD ((start + j) % sz) 0 =
            ((if wval nb j < -epsilon ∨ epsilon < wval nb j
              then data.map (fun ch =>
                ch.set ((start + j) % sz) (ch.getD ((start + j) % sz) 0 / wval nb j))
              else data).getD k []).getD ((start + j) % sz) 0 :=
          divideLoop_getD_untouched sz start nb st (j + 1) _ data' k _ h'
            (fun j' h1 h2 => mod_shift_ne sz start j j' (by omega) (by omega) (by omega))
        rw [huntouched]
        by_cases hc : wval nb j < -epsilon ∨ epsilon < wval nb j
        · rw [if_pos hc, if_pos hc, map_getD_chan _ _ _ hk]
          have hpos : (start + j) % sz < (data.getD k []).length := by
            rw [hch _ (by
              rw [List.getD_eq_getElem?_getD, List.getElem?_eq_getElem hk]
              exact List.getElem_mem _)]
            exact Nat.mod_lt _ hszpos
          rw [getD_set_self _ _ _ hpos]
        · rw [if_neg hc, if_neg hc]
      · have hgt : i < j := by omega
        by_cases hc0 : wval nb i < -epsilon ∨ epsilon < wval nb i
        · rw [if_pos hc0] at h'
          have hmapch : ∀ ch' ∈ data.map (fun ch =>
              ch.set ((start + i) % sz) (ch.getD ((start + i) % sz) 0 / wval nb i)),
              ch'.length = sz := by
            intro ch' hch'
            obtain ⟨ch, hm, rfl⟩ := List.mem_map.mp hch'
            simpa using hch ch hm
          rw [ih (i + 1) _ data' h' (by omega) hmapch j (by omega) (by omega) k
            (by simpa using hk)]
          have hcell : ((data.map (fun ch =>
              ch.set ((start + i) % sz) (ch.getD ((start + i) % sz) 0 / wval nb i))).getD
                k []).getD ((start + j) % sz) 0 =
              (data.getD k []).getD ((start + j) % sz) 0 := by
            rw [map_getD_chan _ _ _ hk]
            exact getD_set_ne _ _ _ _
              (mod_shift_ne sz start i j (by omega) (by omega) (by omega))
          rw [hcell]
        · rw [if_neg hc0] at h'
          exact ih (i + 1) data data' h' (by omega) hch j (by omega) (by omega) k hk

/-- The epsilon test of `Divide` in the source (`v < -ε || v > ε`) fails
exactly when `|v| ≤ ε`. -/
theorem epsilon_test_iff (q : ℚ) : ¬(q < -epsilon ∨ epsilon < q) ↔ |q| ≤ epsilon := by
  rw [abs_le]
  push_neg
  exact Iff.rfl

/-- Claim C7: `Divide(weights, n)` panics — before modifying anything — when
`n` exceeds the remaining writable space; otherwise it divides, in every
channel, each of the first `n` writable samples by the corresponding
normalization weight, except that a weight of magnitude within the epsilon
`1e-4` is treated as unity (the sample is left unchanged); samples outside
the first `n` writable cells are untouched, and the readable region, cursor
and sizes are unchanged. -/
theorem divide_spec (c : CBuffer) (nb : NormalizeBuffer) (n : ℕ) (hwf : c.wf)
    (hn : n ≤ c.remainingSpace) (hnb : n ≤ nb.data.length) :
    (∃ c', c.divide nb n = some c' ∧
      c'.length = c.length ∧ c'.readPointer = c.readPointer ∧ c'.size = c.size ∧
      c'.data.length = c.data.length ∧
      (∀ k, k < c.data.length → ∀ i, i < n →
        (c'.data.getD k []).getD ((c.readPointer + c.length + i) % c.size) 0 =
          (if |wval nb i| ≤ epsilon
           then (c.data.getD k []).getD ((c.readPointer + c.length + i) % c.size) 0
           else (c.data.getD k []).getD ((c.readPointer + c.length + i) % c.size) 0
             / wval nb i)) ∧
      (∀ k p, (∀ i, i < n → p ≠ (c.readPointer + c.length + i) % c.size) →
        (c'.data.getD k []).getD p 0 = (c.data.getD k []).getD p 0)) ∧
    (∀ m, c.remainingSpace < m → c.divide nb m = none) := by
  obtain ⟨hch, hlen, hsz⟩ := hwf
  constructor
  · obtain ⟨d0, hd0⟩ := divideLoop_isSome c.size (c.readPointer + c.length) nb n 0 c.data
      (fun j h1 h2 => by omega)
    obtain ⟨hdlen, -⟩ := divideLoop_shape _ _ nb n 0 c.data d0 hd0
    refine ⟨{ c with data := d0 }, ?_, rfl, rfl, rfl, hdlen, ?_, ?_⟩
    · simp only [CBuffer.divide]
      rw [if_neg (by omega), hd0]
      rfl
    · intro k hk i hi
      have hhit := divideLoop_getD_hit c.size (c.readPointer + c.length) nb n 0 c.data d0 hd0
        (by simp only [CBuffer.remainingSpace] at hn; omega) hch i (Nat.zero_le i)
        (by omega) k hk
      by_cases hc : |wval nb i| ≤ epsilon
      · have hncond := (epsilon_test_iff (wval nb i)).mpr hc
        rw [show ({ c with data := d0 } : CBuffer).data = d0 from rfl]
        rw [hhit, if_neg hncond, if_pos hc]
      · have hcond : wval nb i < -epsilon ∨ epsilon < wval nb i := by
          by_contra hcon
          exact hc ((epsilon_test_iff (wval nb i)).mp hcon)
        rw [show ({ c with data := d0 } : CBuffer).data = d0 from rfl]
        rw [hhit, if_pos hcond, if_neg hc]
    · intro k p hp
      exact divideLoop_getD_untouched c.size (c.readPointer + c.length) nb n 0 c.data d0 k p hd0
        (fun j h1 h2 => hp j (by omega))
  · intro m hm
    simp only [CBuffer.divide]
    rw [if_pos hm]

unseal Rat.mul Rat.inv Rat.add Rat.sub Rat.ofScientific Nat.gcd in
/-- Witness for `divide_spec`: a buffer with two writable samples `[6, 5]`,
weights `[2, 1/100000]`: the first sample is divided by `2`, the second
weight is within the epsilon and leaves `5` unchanged. -/
theorem divide_spec_witness :
    (⟨[[6, 5]], 2, 0, 0⟩ : CBuffer).divide ⟨[2, 1 / 100000], 0⟩ 2 =
      some ⟨[[3, 5]], 2, 0, 0⟩ ∧
    |wval ⟨[2, 1 / 100000], 0⟩ 1| ≤ epsilon ∧
    ¬ |wval ⟨[2, 1 / 100000], 0⟩ 0| ≤ epsilon ∧
    (∀ m, 2 < m → (⟨[[6, 5]], 2, 0, 0⟩ : CBuffer).divide ⟨[2, 1 / 100000], 0⟩ m = none) := by
  have h := divide_spec ⟨[[6, 5]], 2, 0, 0⟩ ⟨[2, 1 / 100000], 0⟩ 2
    (by decide) (by decide) (by decide)
  exact ⟨by decide, by decide, by decide,
    fun m hm => h.2 m (by simpa [CBuffer.remainingSpace] using hm)⟩

/-- Reading back exactly the cells just stored recovers the stored values. -/
theorem readFrom_storeFrom (sz rp : ℕ) (ch vals : List ℚ) (hch : ch.length = sz)
    (hv : vals.length ≤ sz) :
    readFrom sz (storeFrom sz ch rp vals) rp vals.length = vals := by
  apply List.ext_getElem (by simp [readFrom])
  intro i h1 h2
  simp only [readFrom, List.getElem_map, List.getElem_range]
  rw [storeFrom, applyFrom_getD_hit sz _ vals ch rp i h2 hv hch]
  rw [List.getD_eq_getElem?_getD, List.getElem?_eq_getElem h2]
  rfl

/-- Claim C9 (amended): on a buffer with no readable samples, writing a
well-formed block that fits entirely in the remaining space and then
immediately reading a destination of the same size yields exactly the
written samples, in order, on every channel. -/
theorem write_read_roundtrip (c : CBuffer) (b : Block) (hwf : c.wf)
    (hempty : c.length = 0) (hch : c.data.length = blockChannels b)
    (hb : blockWF b) (hfit : blockLen b ≤ c.remainingSpace) :
    ∃ c', c.write b = some (blockLen b, c') ∧
      (c'.read (blockLen b)).1 = blockLen b ∧
      (c'.read (blockLen b)).2.1 = b := by
  obtain ⟨hchl, hlen, hsz⟩ := hwf
  have hbl : blockLen b ≤ c.size := by
    simp only [CBuffer.remainingSpace, hempty, Nat.sub_zero] at hfit
    exact hfit
  have hmin : min (blockLen b) c.remainingSpace = blockLen b := min_eq_left hfit
  refine ⟨{ c with
      data := List.zipWith (fun ch bch => storeFrom c.size ch (c.readPointer + c.length)
        (bch.take (min (blockLen b) c.remainingSpace))) c.data b,
      length := c.length + min (blockLen b) c.remainingSpace }, ?_, ?_, ?_⟩
  · simp only [CBuffer.write]
    rw [if_neg (by simp [hch]), hmin]
  · simp [CBuffer.read, CBuffer.peek, hempty, hmin]
  · simp only [CBuffer.read, CBuffer.peek, hempty, hmin, Nat.zero_add, Nat.add_zero,
      Nat.min_self]
    apply List.ext_getElem
    · simp only [List.length_map, List.length_zipWith]
      rw [hch, blockChannels]
      omega
    · intro k h1 h2
      have hkc : k < c.data.length := by rw [hch, blockChannels]; exact h2
      simp only [List.getElem_map, List.getElem_zipWith]
      have hbk : (b[k]).length = blockLen b := hb _ (List.getElem_mem h2)
      have htake : (b[k]).take (blockLen b) = b[k] := by
        rw [← hbk, List.take_length]
      rw [htake]
      have hrs := readFrom_storeFrom c.size c.readPointer (c.data[k]) (b[k])
        (hchl _ (List.getElem_mem hkc)) (hbk ▸ hbl)
      rw [hbk] at hrs
      exact hrs

unseal Rat.mul Rat.inv Rat.add Rat.sub Rat.ofScientific Nat.gcd in
/-- Witness for `write_read_roundtrip`: writing `[3, 4]` into a fresh 1×2
buffer and reading two samples back returns `[3, 4]`. -/
theorem write_read_roundtrip_witness :
    ∃ c', (CBuffer.new 1 2).write [[3, 4]] = some (2, c') ∧
      (c'.read 2).2.1 = [[3, 4]] := by
  obtain ⟨c', h1, -, h3⟩ := write_read_roundtrip (CBuffer.new 1 2) [[3, 4]]
    (by decide) (by decide) (by decide) (by decide) (by decide)
  exact ⟨c', h1, h3⟩

/-- Full characterisation of `NormalizeBuffer.Remove`'s loop: after `k`
steps the cursor has advanced by `k` (mod capacity) and exactly the cells at
offsets `0 ≤ j < k` from the old cursor are zeroed. -/
theorem nbRemoveLoop_spec :
    ∀ (k : ℕ) (b : NormalizeBuffer), 0 < b.data.length → b.pointer < b.data.length →
      (nbRemoveLoop b k).data.length = b.data.length ∧
      (nbRemoveLoop b k).pointer = (b.pointer + k) % b.data.length ∧
      (∀ p, p < b.data.length →
        (nbRemoveLoop b k).data.getD p 0 =
          if ∃ j, j < k ∧ p = (b.pointer + j) % b.data.length then 0
          else b.data.getD p 0) := by
  intro k
  induction k with
  | zero =>
    intro b hb hp
    refine ⟨rfl, (Nat.mod_eq_of_lt hp).symm, fun p hpp => ?_⟩
    rw [if_neg (by rintro ⟨j, hj, -⟩; omega)]
    rfl
  | succ k ih =>
    intro b hb hp
    have hstep_len : (nbRemoveStep b).data.length = b.data.length := by
      simp [nbRemoveStep]
    have hstep_ptr : (nbRemoveStep b).pointer = (b.pointer + 1) % b.data.length := rfl
    obtain ⟨ih1, ih2, ih3⟩ := ih (nbRemoveStep b) (by rw [hstep_len]; exact hb)
      (by rw [hstep_len, hstep_ptr]; exact Nat.mod_lt _ hb)
    have hloop : nbRemoveLoop b (k + 1) = nbRemoveLoop (nbRemoveStep b) k := rfl
    refine ⟨by rw [hloop, ih1, hstep_len], ?_, ?_⟩
    · rw [hloop, ih2, hstep_len, hstep_ptr, Nat.mod_add_mod]
      congr 1
      omega
    · intro p hpp
      rw [hloop, ih3 p (by rw [hstep_len]; exact hpp)]
      have hidx : ∀ j : ℕ, ((nbRemoveStep b).pointer + j) % (nbRemoveStep b).data.length =
          (b.pointer + (1 + j)) % b.data.length := by
        intro j
        rw [hstep_len, hstep_ptr, Nat.mod_add_mod]
        congr 1
        omega
      have hcell : (nbRemoveStep b).data.getD p 0 =
          if p = b.pointer % b.data.length then 0 else b.data.getD p 0 := by
        simp only [nbRemoveStep]
        by_cases hpe : p = b.pointer % b.data.length
        · rw [if_pos hpe, hpe, getD_set_self _ _ _ (Nat.mod_lt _ hb)]
        · rw [if_neg hpe, getD_set_ne _ _ _ _ (fun he => hpe he.symm)]
      by_cases hex : ∃ j, j < k + 1 ∧ p = (b.pointer + j) % b.data.length
      · rw [if_pos hex]
        obtain ⟨j, hj, hpj⟩ := hex
        by_cases hin : ∃ j', j' < k ∧
            p = ((nbRemoveStep b).pointer + j') % (nbRemoveStep b).data.length
        · rw [if_pos hin]
        · rw [if_neg hin, hcell, if_pos ?_]
          cases j with
          | zero => rw [Nat.add_zero] at hpj; exact hpj
          | succ j' =>
            exact absurd ⟨j', by omega,
              by rw [hidx j', show 1 + j' = j' + 1 from by omega]; exact hpj⟩ hin
      · rw [if_neg hex, if_neg ?hno2, hcell, if_neg ?hno3]
        case hno2 =>
          rintro ⟨j', hj', hpj'⟩
          rw [hidx j'] at hpj'
          exact hex ⟨1 + j', by omega, hpj'⟩
        case hno3 =>
          intro hpe
          exact hex ⟨0, by omega, by rw [Nat.add_zero]; exact hpe⟩

/-- Claim C3 (amended): `Clear` resets all state for a new stream provided
the input buffer holds at most `frameLength` readable samples at the call and
its writable cells are all zero (both always true when
`deltaBefore = deltaAfter = 0`, where the input capacity equals
`frameLength`): afterwards the input buffer contains exactly
`deltaBefore + frameLength/2` readable samples, all its cells are zero,
`skipOutputSamples = frameLength/2`, the output buffer has readable length
`0`, the normalization buffer is entirely zero, and the converter state is
reset.  (Without the extra hypotheses the claim fails; see the
counterexample.) -/
theorem clear_resets_state (σ : Type) (s : Settings σ) (t : TSM s)
    (hf : 0 < s.frameLength)
    (hin : t.inBuffer.size = s.deltaBefore + s.frameLength + s.deltaAfter)
    (hinwf : t.inBuffer.wf)
    (hlen3 : t.inBuffer.length ≤ s.frameLength)
    (hzero : ∀ ch ∈ t.inBuffer.data, ∀ p, p < t.inBuffer.size →
      (∀ j, j < t.inBuffer.length → p ≠ (t.inBuffer.readPointer + j) % t.inBuffer.size) →
      ch.getD p 0 = 0)
    (hout : t.outBuffer.size = s.frameLength)
    (houtlen : t.outBuffer.length ≤ t.outBuffer.size)
    (hnb : t.normalizeBuffer.data.length = s.frameLength)
    (hnbp : t.normalizeBuffer.pointer < s.frameLength) :
    ∃ t', t.clear = some t' ∧
      t'.inBuffer.length = s.deltaBefore + s.frameLength / 2 ∧
      (∀ ch ∈ t'.inBuffer.data, ch = List.replicate t.inBuffer.size 0) ∧
      t'.skipOutputSamples = s.frameLength / 2 ∧
      t'.outBuffer.length = 0 ∧
      t'.normalizeBuffer.data = List.replicate s.frameLength 0 ∧
      t'.convState = s.clearConv t.convState := by
  obtain ⟨hch, hlen0, hsz⟩ := hinwf
  have hm : min s.frameLength t.inBuffer.length = t.inBuffer.length := min_eq_right hlen3
  have hiblen : (t.inBuffer.remove s.frameLength).length = 0 := by
    simp [CBuffer.remove, hm]
  have hsr : (t.inBuffer.remove s.frameLength).setReadable
      (s.deltaBefore + s.frameLength / 2) =
      some { t.inBuffer.remove s.frameLength with
             length := (t.inBuffer.remove s.frameLength).length
               + (s.deltaBefore + s.frameLength / 2) } := by
    simp only [CBuffer.setReadable]
    rw [if_neg (by
      simp only [CBuffer.remainingSpace, hiblen, Nat.sub_zero, Nat.not_lt]
      show s.deltaBefore + s.frameLength / 2 ≤ (t.inBuffer.remove s.frameLength).size
      show s.deltaBefore + s.frameLength / 2 ≤ t.inBuffer.size
      omega)]
  refine ⟨{ t with
      inBuffer := { t.inBuffer.remove s.frameLength with
        length := (t.inBuffer.remove s.frameLength).length
          + (s.deltaBefore + s.frameLength / 2) },
      outBuffer := t.outBuffer.remove s.frameLength,
      normalizeBuffer := t.normalizeBuffer.remove s.frameLength,
      skipOutputSamples := s.frameLength / 2,
      convState := s.clearConv t.convState }, ?_, ?_, ?_, ?_, ?_, ?_, ?_⟩
  · simp only [TSM.clear]
    rw [hsr]
    rfl
  · simp [hiblen]
  · intro ch' h'
    simp only [CBuffer.remove] at h'
    obtain ⟨ch, hmm, rfl⟩ := List.mem_map.mp h'
    apply eq_replicate_of_getD _ _ (by rw [zeroFrom, applyFrom_length]; exact hch ch hmm)
    intro p hp
    by_cases hhit : ∃ j, j < min s.frameLength t.inBuffer.length ∧
        p = (t.inBuffer.readPointer + j) % t.inBuffer.size
    · obtain ⟨j, hj, rfl⟩ := hhit
      rw [zeroFrom, applyFrom_getD_hit t.inBuffer.size _ _ ch t.inBuffer.readPointer j
        (by simpa using hj) (by simp; omega) (hch ch hmm)]
    · push_neg at hhit
      rw [zeroFrom, applyFrom_getD_untouched _ _ _ ch _ p
        (fun j hj => hhit j (by simpa using hj))]
      exact hzero ch hmm p hp (fun j hj => hhit j (by omega))
  · rfl
  · simp only [CBuffer.remove, hout]
    omega
  · have hlen' : t.normalizeBuffer.data.length ≠ 0 := by omega
    simp only [NormalizeBuffer.remove, if_neg hlen']
    obtain ⟨l1, -, l3⟩ := nbRemoveLoop_spec s.frameLength t.normalizeBuffer
      (by omega) (by omega)
    apply eq_replicate_of_getD _ _ (by rw [l1, hnb])
    intro p hp
    rw [l3 p (by omega), if_pos ?_]
    obtain ⟨j, hj, hpj⟩ := exists_shift_residue t.normalizeBuffer.data.length
      t.normalizeBuffer.pointer p (by omega) (by omega)
    exact ⟨j, by omega, hpj.symm⟩
  · rfl

unseal Rat.mul Rat.inv Rat.add Rat.sub Rat.ofScientific Nat.gcd in
/-- Witness for `clear_resets_state` at the concrete identity-converter
engine `putDemo` (`deltaBefore = deltaAfter = 0`, `frameLength = 4`, two
readable zero samples): `Clear` yields `2` readable samples again and an
all-zero input buffer. -/
theorem clear_resets_state_witness :
    ∃ t', putDemo.clear = some t' ∧
      t'.inBuffer.length = 2 ∧ t'.skipOutputSamples = 2 ∧ t'.outBuffer.length = 0 := by
  obtain ⟨t', h1, h2, -, h4, h5, -⟩ := clear_resets_state Unit identitySettings putDemo
    (by decide) (by decide) (by decide) (by decide)
    (by decide) (by decide) (by decide) (by decide) (by decide)
  exact ⟨t', h1, h2, h4, h5⟩

end GoTSM
